import Mathlib

/-!
Verification of the stampy-chat orchestration core
(`src/api/src/stampy_chat/chat.py`) against its natural-language
specification.

The development shallowly embeds the module: the tokenizer (tiktoken's
`cl100k_base`) is an external collaborator, modelled as an abstract
`Encoder` record with a concrete character-level instance used for
evaluation; the remote collaborators (retrieval, moderation, completion
streaming, followup lookup) are modelled as oracles in a `World` record,
and the generator `talk_to_robot_internal` becomes a pure function from a
`World` to the list of actions it performs (events yielded and remote
calls issued, in order).
-/

namespace StampyChat

/-- The external tokenizer interface (`tiktoken` `ENCODER` in the source):
`encode` turns text into a token list, `decode` turns a token list back
into text. -/
structure Encoder where
  encode : String → List Nat
  decode : List Nat → String

/-- `len(ENCODER.encode(text))` — the measured token cost of a string. -/
def tokenCount (E : Encoder) (s : String) : Nat :=
  (E.encode s).length

/-- `cap(text, max_tokens)` from the source: limit a string to a number of
tokens.  `if max_tokens <= 0: return "..."`; otherwise return the text
unchanged when it fits, else decode the first `max_tokens` tokens and
append `" ..."`. -/
def cap (E : Encoder) (text : String) (maxTokens : Int) : String :=
  if maxTokens ≤ 0 then "..."
  else
    let encoded := E.encode text
    if (encoded.length : Int) ≤ maxTokens then text
    else E.decode (encoded.take maxTokens.toNat) ++ " ..."

/-- A concrete `Encoder` instance used for evaluation: one token per
character.  It satisfies the round-trip contract of the real tokenizer
(`decode (encode s) = s`, `encode "" = []`). -/
def charEncoder : Encoder where
  encode s := s.data.map Char.toNat
  decode l := String.mk (l.map Char.ofNat)

/-- `NUM_TOKENS` for the configured `gpt-3.5-turbo` completions model. -/
def NUM_TOKENS : Nat := 4095

/-- `int(NUM_TOKENS * HISTORY_FRACTION)` with `HISTORY_FRACTION = 0.25`:
`int(4095 * 0.25) = int(1023.75) = 1023`. -/
def histTokenLimit : Nat := NUM_TOKENS / 4

/-- `int(NUM_TOKENS * CONTEXT_FRACTION)` with `CONTEXT_FRACTION = 0.5`:
`int(4095 * 0.5) = int(2047.5) = 2047`. -/
def ctxTokenLimit : Nat := NUM_TOKENS / 2

/-- A chat message `{"role": ..., "content": ...}`; also the shape of a
caller-supplied history entry. -/
structure Msg where
  role : String
  content : String
deriving DecidableEq, Repr

/-- A retrieved reference block (`Block` from `get_blocks`). -/
structure Block where
  title : String
  authors : List String
  date : String
  url : String
  text : String
deriving DecidableEq, Repr

/-- Maximal run of decimal digits at the head of a character list, with the
remainder. -/
def spanDigits : List Char → List Char × List Char
  | [] => ([], [])
  | c :: cs =>
    if c.isDigit then
      let p := spanDigits cs
      (c :: p.1, p.2)
    else ([], c :: cs)

/-- `re.sub(r"\[[0-9]+\]", "[x]", content)`: scan left to right; every
non-overlapping occurrence of a bracketed run of one or more digits is
replaced by the three characters of the literal censored marker.  The
fuel argument only serves structural recursion: every step consumes at
least one character, so starting the fuel at the input length never
exhausts it. -/
def scrubAux : Nat → List Char → List Char
  | _, [] => []
  | 0, l => l
  | fuel + 1, c :: cs =>
    if c = '[' then
      match (spanDigits cs).1, (spanDigits cs).2 with
      | _ :: _, ']' :: r => '[' :: 'x' :: ']' :: scrubAux fuel r
      | _, _ => c :: scrubAux fuel cs
    else c :: scrubAux fuel cs

/-- Citation scrubbing over strings. -/
def scrubCitations (s : String) : String :=
  String.mk (scrubAux s.data.length s.data)

/-- The fixed system-instruction text that opens `source_prompt`. -/
def sourcePromptIntro : String :=
  "You are a helpful assistant knowledgeable about AI Alignment and Safety. " ++
  "Please give a clear and coherent answer to the user's questions.(written after \"Q:\") " ++
  "using the following sources. Each source is labeled with a letter. Feel free to " ++
  "use the sources in any order, and try to use multiple sources in your answers.\n\n"

/-- The caveat appended to the system message when history is nonempty. -/
def historyCaveat : String :=
  "\n\nBefore the question (\"Q: \"), there will be a history of previous questions and answers. " ++
  "These sources only apply to the last question. Any sources used in previous answers " ++
  "are invalid."

/-- `f"[{chr(ord('a') + i)}] {block.title} - {','.join(block.authors)} - {block.date}\n{block.text}\n\n"` -/
def renderBlock (i : Nat) (b : Block) : String :=
  "[" ++ String.singleton (Char.ofNat (97 + i)) ++ "] " ++ b.title ++ " - " ++
    String.intercalate "," b.authors ++ " - " ++ b.date ++ "\n" ++ b.text ++ "\n\n"

/-- The `for i, block in enumerate(context)` loop of `construct_prompt`:
append rendered blocks to the accumulated system text while the running
token count stays within `int(NUM_TOKENS * CONTEXT_FRACTION)`; the first
block whose whole rendering would cross the limit is `cap`ped to the
remaining budget and the loop breaks. -/
def contextLoop (E : Encoder) : List (Nat × Block) → String → Nat → String
  | [], acc, _ => acc
  | (i, b) :: rest, acc, tc =>
    let blockStr := renderBlock i b
    let blockTc := tokenCount E blockStr
    if tc + blockTc > ctxTokenLimit then
      acc ++ cap E blockStr ((ctxTokenLimit : Int) - (tc : Int))
    else
      contextLoop E rest (acc ++ blockStr) (tc + blockTc)

/-- The history-truncation loop of `construct_prompt`, walking the slice
`history[:-10:-1]` (most recent first).  Each user turn becomes
`"Q: " + content`; each other turn becomes the citation-scrubbed `cap`
of its content against the remaining history budget; the loop breaks as
soon as the running count exceeds `int(NUM_TOKENS * HISTORY_FRACTION)`,
after appending the crossing message. -/
def history_trnc (E : Encoder) : List Msg → Nat → List Msg
  | [], _ => []
  | m :: rest, tc =>
    if m.role = "user" then
      let c := "Q: " ++ m.content
      let tc' := tc + tokenCount E c
      ⟨"user", c⟩ :: (if tc' > histTokenLimit then [] else history_trnc E rest tc')
    else
      let c := scrubCitations (cap E m.content ((histTokenLimit : Int) - (tc : Int)))
      let tc' := tc + tokenCount E c
      ⟨"assistant", c⟩ :: (if tc' > histTokenLimit then [] else history_trnc E rest tc')

/-- The history segment of the assembled prompt: the collected messages of
`history_trnc` over `history[:-10:-1]` (in Lean: the first nine of the
reversed history), re-reversed into chronological order. -/
def promptHistory (E : Encoder) (history : List Msg) : List Msg :=
  (history_trnc E (history.reverse.take 9) 0).reverse

/-- The fixed citation-format instructions opening `question_prompt`. -/
def questionIntro : String :=
  "In your answer, please cite any claims you make back to each source " ++
  "using the format: [a], [b], etc. If you use multiple sources to make a claim " ++
  "cite all of them. For example: \"AGI is concerning [c, d, e].\"\n\n"

/-- The `concise`-mode elaboration block. -/
def conciseText : String :=
  "Answer very concisely, getting to the crux of the matter in as " ++
  "few words as possible. Limit your answer to 1-2 sentences.\n\n"

/-- The `rookie`-mode elaboration block. -/
def rookieText : String :=
  "This user is new to the field of AI Alignment and Safety - don't " ++
  "assume they know any technical terms or jargon. Still give a complete answer " ++
  "without patronizing the user, but take any extra time needed to " ++
  "explain new concepts or to illustrate your answer with examples. " ++
  "Put extra effort into explaining the intuition behind concepts " ++
  "rather than just giving a formal definition.\n\n"

/-- `construct_prompt(query, mode, history, context)`.  Fallible because an
unknown mode raises `ValueError("Invalid mode: " + mode)`. -/
def construct_prompt (E : Encoder) (query mode : String) (history : List Msg)
    (context : List Block) : Except String (List Msg) :=
  let sourceText := contextLoop E context.enum sourcePromptIntro (tokenCount E sourcePromptIntro)
  let sourceText := sourceText.trim
  let sourceText := if history.length > 0 then sourceText ++ historyCaveat else sourceText
  let hist := promptHistory E history
  let questionText : Except String String :=
    if mode = "concise" then .ok (questionIntro ++ conciseText)
    else if mode = "rookie" then .ok (questionIntro ++ rookieText)
    else if mode ≠ "default" then .error ("Invalid mode: " ++ mode)
    else .ok questionIntro
  match questionText with
  | .error e => .error e
  | .ok qt => .ok (⟨"system", sourceText.trim⟩ :: hist ++ [⟨"user", qt ++ "Q: " ++ query⟩])

/-- The citation record attached to the second `loading(semantic)` event:
`{'title': ..., 'author': block.authors, 'date': ..., 'url': ...}`. -/
structure Citation where
  title : String
  author : List String
  date : String
  url : String
deriving DecidableEq, Repr

/-- The citation list built from the retrieved blocks. -/
def citationsOf (blocks : List Block) : List Citation :=
  blocks.map fun b => ⟨b.title, b.authors, b.date, b.url⟩

/-- A followup suggestion is an opaque serializable record; its payload is
irrelevant here. -/
def Followup := String
deriving instance DecidableEq, Repr for Followup

/-- One yielded dictionary of the generator: a `loading` event (with its
phase and, for the second semantic event, a citation list), a `streaming`
fragment, the terminal `done` (with followups) or the terminal `error`. -/
inductive Event where
  | loading (phase : String) (citations : Option (List Citation))
  | streaming (content : String)
  | done (followups : List Followup)
  | error (msg : String)
deriving DecidableEq, Repr

/-- One observable step of `talk_to_robot_internal`: either a yielded
event or a call to one of the remote collaborators. -/
inductive Action where
  | emit (e : Event)
  | callRetrieval
  | callModeration
  | callCompletion
  | callFollowups
deriving DecidableEq, Repr

/-- The oracles for the external collaborators and the session ledger, one
record per invocation: each fallible remote call either returns a value or
raises (`Except.error` carries `str(e)`); the completion stream delivers
`chunks` (each with an optional content delta) and then either finishes or
raises `streamTail`. -/
structure World where
  retrieval : Except String (List Block)
  moderation : Except String (List Bool)
  currentCost : Int
  totalBudget : Int
  chunks : List (Option String)
  streamTail : Option String
  followups : Except String (List Followup)

/-- `raise Exception(f"Exceeded the maximum budget for this session")` -/
def budgetMsg : String := "Exceeded the maximum budget for this session"

/-- `raise ValueError("This conversation was rejected by OpenAI's moderation filter. Sorry.")` -/
def moderationMsg : String :=
  "This conversation was rejected by OpenAI's moderation filter. Sorry."

/-- The streaming events produced by the completion loop: one per chunk
whose delta has content. -/
def streamEvents (chunks : List (Option String)) : List Event :=
  chunks.filterMap fun c => c.map Event.streaming

/-- `talk_to_robot_internal` as the ordered list of actions (yields and
remote calls) the generator performs against a given `World`: yield
`loading(semantic)`, call retrieval, yield the citations and
`loading(prompt)`, build the prompt (an invalid mode raises here), call
moderation and abort on a flag, yield `loading(llm)`, apply the (inverted)
session-budget gate, call the completion stream yielding one `streaming`
event per content delta, then call the followup lookup and yield the
terminal `done`.  Any raise is caught by the enclosing handler, which
yields one terminal `error(str(e))`. -/
def talk_to_robot_internal (E : Encoder) (w : World) (query mode : String)
    (history : List Msg) : List Action :=
  .emit (.loading "semantic" none) ::
  .callRetrieval ::
  match w.retrieval with
  | .error e => [.emit (.error e)]
  | .ok blocks =>
    .emit (.loading "semantic" (some (citationsOf blocks))) ::
    .emit (.loading "prompt" none) ::
    match construct_prompt E query mode history blocks with
    | .error e => [.emit (.error e)]
    | .ok _prompt =>
      .callModeration ::
      match w.moderation with
      | .error e => [.emit (.error e)]
      | .ok flags =>
        if flags.any id then [.emit (.error moderationMsg)]
        else
          .emit (.loading "llm" none) ::
          if w.currentCost ≤ w.totalBudget then [.emit (.error budgetMsg)]
          else
            .callCompletion ::
            ((streamEvents w.chunks).map Action.emit ++
              match w.streamTail with
              | some e => [.emit (.error e)]
              | none =>
                .callFollowups ::
                match w.followups with
                | .error e => [.emit (.error e)]
                | .ok fs => [.emit (.done fs)])

/-- The events yielded by an action trace, in order. -/
def eventsOf (as : List Action) : List Event :=
  as.filterMap fun a => match a with | .emit e => some e | _ => none

/-- The result object of `talk_to_robot_simple`: `res` starts as
`{'response': ''}` and may acquire a `citations` key. -/
structure SimpleResult where
  citations : Option (List (Char × Citation))
  response : String
deriving DecidableEq, Repr

/-- The letter-keyed citation mapping `chr(ord('a') + i) -> c`. -/
def letterKeyed (cs : List Citation) : List (Char × Citation) :=
  cs.enum.map fun p => (Char.ofNat (97 + p.1), p.2)

/-- One step of the event loop of `talk_to_robot_simple`. -/
def simpleStep (r : SimpleResult) (e : Event) : SimpleResult :=
  match e with
  | .loading phase cites =>
    if phase = "semantic" then
      match cites with
      | some l => { r with citations := some (letterKeyed l) }
      | none => r
    else r
  | .streaming c => { r with response := r.response ++ c }
  | .error m => { r with response := m }
  | .done _ => r

/-- `talk_to_robot_simple`: consume the whole event sequence of
`talk_to_robot_internal` (mode `"default"`, empty history) into one final
citations+response object. -/
def talk_to_robot_simple (E : Encoder) (w : World) (query : String) : SimpleResult :=
  (eventsOf (talk_to_robot_internal E w query "default" [])).foldl simpleStep ⟨none, ""⟩

/-! ## Helper lemmas about the character-level encoder -/

theorem tokenCount_charEncoder (s : String) : tokenCount charEncoder s = s.length := by
  simp only [tokenCount, charEncoder, List.length_map]
  rfl

theorem charEncoder_decode_length (l : List Nat) :
    (charEncoder.decode l).length = l.length := by
  show (String.mk (l.map Char.ofNat)).length = l.length
  rw [show (String.mk (l.map Char.ofNat)).length = (l.map Char.ofNat).length from rfl,
    List.length_map]

/-! ## C3 -/

/-- C3 counterexample: with the character-level encoder, `cap "ab" 1`
truncates to the one-token prefix `"a"` and appends the marker `" ..."`,
so the re-tokenized result has 5 tokens, more than the ceiling 1.  The
claim that `cap`'s result always re-tokenizes to at most `N` tokens is
false. -/
theorem cap_result_can_exceed_ceiling :
    tokenCount charEncoder (cap charEncoder "ab" 1) = 5 ∧
    ¬ tokenCount charEncoder (cap charEncoder "ab" 1) ≤ 1 := by
  decide

/-- C3 amended: for `N ≤ 0` the result is the literal ellipsis marker; in
general the re-tokenized result is bounded by the ceiling plus the cost of
the appended marker `" ..."` (4 tokens under the character-level encoder),
not by the ceiling alone: the `≤ N` bound as claimed holds only when no
truncation occurs. -/
theorem cap_result_bounded_by_ceiling_plus_marker (T : String) (N : Int) :
    (N ≤ 0 → cap charEncoder T N = "...") ∧
    tokenCount charEncoder (cap charEncoder T N) ≤ N.toNat + 4 := by
  constructor
  · intro h
    simp [cap, h]
  · by_cases h1 : N ≤ 0
    · have hres : cap charEncoder T N = "..." := by simp [cap, h1]
      rw [hres, tokenCount_charEncoder]
      have h5 : ("..." : String).length = 3 := rfl
      omega
    · by_cases h2 : ((charEncoder.encode T).length : Int) ≤ N
      · have hres : cap charEncoder T N = T := by
          simp [cap, h1, h2]
        rw [hres]
        have h3 : tokenCount charEncoder T = (charEncoder.encode T).length := rfl
        omega
      · have hres : cap charEncoder T N =
            charEncoder.decode ((charEncoder.encode T).take N.toNat) ++ " ..." := by
          simp [cap, h1, h2]
        rw [hres, tokenCount_charEncoder, String.length_append]
        have h3 : ((charEncoder.encode T).take N.toNat).length ≤ N.toNat :=
          List.length_take_le _ _
        have h4 := charEncoder_decode_length ((charEncoder.encode T).take N.toNat)
        have h5 : (" ..." : String).length = 4 := rfl
        omega

/-- C3 amended witness at `T = "ab"`, `N = 0`. -/
theorem cap_result_bounded_by_ceiling_plus_marker_witness :
    cap charEncoder "ab" 0 = "..." ∧
    tokenCount charEncoder (cap charEncoder "ab" 0) ≤ 4 :=
  ⟨(cap_result_bounded_by_ceiling_plus_marker "ab" 0).1 (by decide),
   by simpa using (cap_result_bounded_by_ceiling_plus_marker "ab" 0).2⟩

/-! ## C8 -/

/-- C8 counterexample: the empty text has token count `0 ≤ 0`, yet
`cap "" 0` takes the `max_tokens <= 0` branch and returns the ellipsis
marker instead of the text unchanged. -/
theorem cap_not_identity_at_zero_budget :
    tokenCount charEncoder "" = 0 ∧ cap charEncoder "" 0 ≠ "" := by
  decide

/-- C8 amended: for every encoder, every text and every strictly positive
ceiling, if the text's token count is at most the ceiling then `cap`
returns the text unchanged; the claim fails only at `N = 0`, where the
`max_tokens <= 0` branch returns the marker even for fitting text. -/
theorem cap_identity_of_fits (E : Encoder) (T : String) (N : Int)
    (hN : 0 < N) (hfit : (tokenCount E T : Int) ≤ N) :
    cap E T N = T := by
  have h1 : ¬ N ≤ 0 := not_le.mpr hN
  have h2 : ((E.encode T).length : Int) ≤ N := hfit
  simp [cap, h1, h2]

/-- C8 amended witness at `E = charEncoder`, `T = "hi"`, `N = 2`. -/
theorem cap_identity_of_fits_witness :
    (0 : Int) < 2 ∧ (tokenCount charEncoder "hi" : Int) ≤ 2 ∧
    cap charEncoder "hi" 2 = "hi" :=
  ⟨by decide, by decide, cap_identity_of_fits charEncoder "hi" 2 (by decide) (by decide)⟩

/-! ## Trace helper lemmas -/

theorem eventsOf_append (a b : List Action) : eventsOf (a ++ b) = eventsOf a ++ eventsOf b :=
  List.filterMap_append _ _ _

theorem eventsOf_map_emit (l : List Event) : eventsOf (l.map Action.emit) = l := by
  induction l with
  | nil => rfl
  | cons e es ih => simpa [eventsOf, List.filterMap_cons] using ih

theorem mem_streamEvents {chunks : List (Option String)} {e : Event}
    (he : e ∈ streamEvents chunks) : ∃ s, e = .streaming s := by
  simp only [streamEvents, List.mem_filterMap] at he
  obtain ⟨c, _, hc⟩ := he
  cases c with
  | none => simp at hc
  | some s => exact ⟨s, by simpa using hc.symm⟩

theorem done_not_mem_streamEvents (chunks : List (Option String)) (fs : List Followup) :
    Event.done fs ∉ streamEvents chunks := by
  intro h
  obtain ⟨s, hs⟩ := mem_streamEvents h
  exact Event.noConfusion hs

/-- Every mode other than the three known ones makes `construct_prompt`
raise `ValueError("Invalid mode: " + mode)`. -/
theorem construct_prompt_invalid_mode (E : Encoder) (query mode : String)
    (history : List Msg) (context : List Block)
    (h1 : mode ≠ "concise") (h2 : mode ≠ "rookie") (h3 : mode ≠ "default") :
    construct_prompt E query mode history context = .error ("Invalid mode: " ++ mode) := by
  simp [construct_prompt, h1, h2, h3]

/-- Mode `"default"` never raises in `construct_prompt`. -/
theorem construct_prompt_default_isOk (E : Encoder) (query : String)
    (history : List Msg) (context : List Block) :
    ∃ p, construct_prompt E query "default" history context = .ok p :=
  ⟨_, rfl⟩

/-! ## C1 -/

/-- C1: the session-budget gate is inverted in the code.  At the failing
input — a fresh session with current cost `0` strictly below its total
budget `10`, exactly the state `talk_to_robot` creates — the invocation
yields the budget-exceeded error with zero streaming events and never
calls the completion service, although the claim (and the spec's intended
ledger semantics) requires generation to proceed while
`currentCost < totalBudget`. -/
theorem budget_gate_rejects_fresh_session :
    (0 : Int) < 10 ∧
    eventsOf (talk_to_robot_internal charEncoder
        ⟨.ok [], .ok [false, false], 0, 10, [some "tok"], none, .ok []⟩
        "hi" "default" []) =
      [.loading "semantic" none, .loading "semantic" (some []), .loading "prompt" none,
       .loading "llm" none, .error budgetMsg] ∧
    Action.callCompletion ∉ talk_to_robot_internal charEncoder
        ⟨.ok [], .ok [false, false], 0, 10, [some "tok"], none, .ok []⟩
        "hi" "default" [] := by
  refine ⟨by decide, rfl, by decide⟩

/-! ## C4 -/

/-- C4 counterexample: with an unknown mode, the retrieval remote call
(`.callRetrieval`, the second action) happens before the invalid-mode
error is raised during prompt assembly, so the error does not precede
every remote call as claimed. -/
theorem invalid_mode_error_after_retrieval_call :
    talk_to_robot_internal charEncoder
        ⟨.ok [], .ok [false, false], 0, 10, [], none, .ok []⟩ "hi" "bogus" [] =
      [.emit (.loading "semantic" none), .callRetrieval,
       .emit (.loading "semantic" (some [])), .emit (.loading "prompt" none),
       .emit (.error "Invalid mode: bogus")] := by
  rfl

/-- C4 amended: for every mode outside `{default, concise, rookie}` the
invocation raises the invalid-mode error during prompt assembly, before
the moderation, completion and followup remote calls — but after the
retrieval call, which always precedes prompt assembly. -/
theorem invalid_mode_error_before_other_remote_calls
    (E : Encoder) (w : World) (query mode : String) (history : List Msg)
    (blocks : List Block) (hr : w.retrieval = .ok blocks)
    (h1 : mode ≠ "concise") (h2 : mode ≠ "rookie") (h3 : mode ≠ "default") :
    talk_to_robot_internal E w query mode history =
      [.emit (.loading "semantic" none), .callRetrieval,
       .emit (.loading "semantic" (some (citationsOf blocks))),
       .emit (.loading "prompt" none),
       .emit (.error ("Invalid mode: " ++ mode))] := by
  have hcp := construct_prompt_invalid_mode E query mode history blocks h1 h2 h3
  simp [talk_to_robot_internal, hr, hcp]

/-- C4 amended witness at mode `"weird"`. -/
theorem invalid_mode_error_before_other_remote_calls_witness :
    talk_to_robot_internal charEncoder
        ⟨.ok [], .ok [false, false], 0, 10, [], none, .ok []⟩ "q" "weird" [] =
      [.emit (.loading "semantic" none), .callRetrieval,
       .emit (.loading "semantic" (some [])), .emit (.loading "prompt" none),
       .emit (.error ("Invalid mode: " ++ "weird"))] :=
  invalid_mode_error_before_other_remote_calls charEncoder
    ⟨.ok [], .ok [false, false], 0, 10, [], none, .ok []⟩ "q" "weird" [] []
    rfl (by decide) (by decide) (by decide)

/-! ## C2 -/

/-- C2 counterexample: when the followup lookup raises after the stream
finished successfully, the enclosing handler turns it into a terminal
`error` event; the invocation does not end with a `done` event carrying
zero followups as claimed. -/
theorem followup_failure_yields_error_event :
    (eventsOf (talk_to_robot_internal charEncoder
        ⟨.ok [], .ok [false, false], 11, 10, [some "partial answer"], none,
         .error "followup lookup failed"⟩ "hi" "default" [])).getLast? =
      some (.error "followup lookup failed") ∧
    ∀ fs, Event.done fs ∉ eventsOf (talk_to_robot_internal charEncoder
        ⟨.ok [], .ok [false, false], 11, 10, [some "partial answer"], none,
         .error "followup lookup failed"⟩ "hi" "default" []) := by
  constructor
  · rfl
  · intro fs
    have h : eventsOf (talk_to_robot_internal charEncoder
        ⟨.ok [], .ok [false, false], 11, 10, [some "partial answer"], none,
         .error "followup lookup failed"⟩ "hi" "default" []) =
      [.loading "semantic" none, .loading "semantic" (some []), .loading "prompt" none,
       .loading "llm" none, .streaming "partial answer",
       .error "followup lookup failed"] := rfl
    rw [h]
    simp

/-- C2 amended: if the followup lookup fails after the completion stream
has finished successfully, the generic exception handler ends the
invocation with a terminal `error` event carrying the failure message; no
`done` event is emitted (the answer fragments were already streamed, but
the terminal event masks the invocation as a failure). -/
theorem followup_failure_ends_with_error
    (E : Encoder) (w : World) (query : String) (history : List Msg)
    (blocks : List Block) (flags : List Bool) (msg : String)
    (hr : w.retrieval = .ok blocks) (hm : w.moderation = .ok flags)
    (hf : flags.any id = false) (hb : w.totalBudget < w.currentCost)
    (hs : w.streamTail = none) (hfu : w.followups = .error msg) :
    eventsOf (talk_to_robot_internal E w query "default" history) =
      [.loading "semantic" none, .loading "semantic" (some (citationsOf blocks)),
       .loading "prompt" none, .loading "llm" none] ++
        streamEvents w.chunks ++ [.error msg] ∧
    ∀ fs, Event.done fs ∉ eventsOf (talk_to_robot_internal E w query "default" history) := by
  obtain ⟨p, hp⟩ := construct_prompt_default_isOk E query history blocks
  have hnb : ¬ w.currentCost ≤ w.totalBudget := not_le.mpr hb
  have htr : talk_to_robot_internal E w query "default" history =
      ([.emit (.loading "semantic" none), .callRetrieval,
        .emit (.loading "semantic" (some (citationsOf blocks))),
        .emit (.loading "prompt" none), .callModeration,
        .emit (.loading "llm" none), .callCompletion] : List Action) ++
        ((streamEvents w.chunks).map Action.emit ++
          [.callFollowups, .emit (.error msg)]) := by
    simp [talk_to_robot_internal, hr, hp, hm, hf, hnb, hs, hfu]
  have hev : eventsOf (talk_to_robot_internal E w query "default" history) =
      [.loading "semantic" none, .loading "semantic" (some (citationsOf blocks)),
       .loading "prompt" none, .loading "llm" none] ++
        streamEvents w.chunks ++ [.error msg] := by
    rw [htr, eventsOf_append, eventsOf_append, eventsOf_map_emit]
    simp [eventsOf]
  refine ⟨hev, fun fs hmem => ?_⟩
  rw [hev] at hmem
  rcases List.mem_append.mp hmem with h | h
  · rcases List.mem_append.mp h with h | h
    · simp at h
    · exact done_not_mem_streamEvents w.chunks fs h
  · simp at h

/-- C2 amended witness. -/
theorem followup_failure_ends_with_error_witness :
    eventsOf (talk_to_robot_internal charEncoder
        ⟨.ok [], .ok [false, false], 11, 10, [some "ans"], none, .error "fups down"⟩
        "q2" "default" []) =
      [.loading "semantic" none, .loading "semantic" (some []),
       .loading "prompt" none, .loading "llm" none] ++
        streamEvents [some "ans"] ++ [.error "fups down"] ∧
    ∀ fs, Event.done fs ∉ eventsOf (talk_to_robot_internal charEncoder
        ⟨.ok [], .ok [false, false], 11, 10, [some "ans"], none, .error "fups down"⟩
        "q2" "default" []) :=
  followup_failure_ends_with_error charEncoder
    ⟨.ok [], .ok [false, false], 11, 10, [some "ans"], none, .error "fups down"⟩
    "q2" [] [] [false, false] "fups down" rfl rfl rfl (by decide) rfl rfl

/-! ## C10 -/

/-- C10: in the single-shot adapter, if the event sequence ends with an
error event then the returned object's `response` field is the error
message itself — the fold's error case overwrites whatever streaming
fragments had been accumulated, so a partial answer is discarded rather
than returned alongside the error. -/
theorem error_event_overwrites_response
    (E : Encoder) (w : World) (query e : String)
    (h : (eventsOf (talk_to_robot_internal E w query "default" [])).getLast? =
      some (.error e)) :
    (talk_to_robot_simple E w query).response = e := by
  have key : ∀ (es : List Event) (r : SimpleResult),
      ((es ++ [Event.error e]).foldl simpleStep r).response = e := by
    intro es r
    rw [List.foldl_append]
    rfl
  have hsplit := List.dropLast_append_getLast? (Event.error e) (by rw [h]; rfl)
  unfold talk_to_robot_simple
  rw [← hsplit]
  exact key _ _

/-- C10 witness: a mid-stream completion failure after the fragment
`"Hello "` was streamed; the single-shot response is the error message,
not the fragment. -/
theorem error_event_overwrites_response_witness :
    (eventsOf (talk_to_robot_internal charEncoder
        ⟨.ok [], .ok [false, false], 11, 10, [some "Hello "], some "completion failed",
         .ok []⟩ "q" "default" [])).getLast? = some (.error "completion failed") ∧
    (talk_to_robot_simple charEncoder
        ⟨.ok [], .ok [false, false], 11, 10, [some "Hello "], some "completion failed",
         .ok []⟩ "q").response = "completion failed" :=
  ⟨rfl, error_event_overwrites_response charEncoder
    ⟨.ok [], .ok [false, false], 11, 10, [some "Hello "], some "completion failed",
     .ok []⟩ "q" "completion failed" rfl⟩

/-! ## C6 -/

/-- Is the event a `loading` event? -/
def isLoading : Event → Bool
  | .loading _ _ => true
  | _ => false

/-- Is the event a `streaming` event? -/
def isStreaming : Event → Bool
  | .streaming _ => true
  | _ => false

/-- Is the event terminal (`done` or `error`)? -/
def isTerminal : Event → Bool
  | .done _ => true
  | .error _ => true
  | _ => false

/-- The fixed partial order of one invocation's events: loading events,
then streaming events, then one terminal event, which is last. -/
def wellShaped (es : List Event) : Prop :=
  ∃ ls ss t, es = ls ++ ss ++ [t] ∧
    (∀ e ∈ ls, isLoading e = true) ∧
    (∀ e ∈ ss, isStreaming e = true) ∧
    isTerminal t = true

theorem isTerminal_eq_false_of_isLoading {e : Event} (h : isLoading e = true) :
    isTerminal e = false := by
  cases e <;> simp [isLoading, isTerminal] at h ⊢

theorem isTerminal_eq_false_of_isStreaming {e : Event} (h : isStreaming e = true) :
    isTerminal e = false := by
  cases e <;> simp [isStreaming, isTerminal] at h ⊢

theorem countP_isTerminal_shape {ls ss : List Event} {t : Event}
    (hl : ∀ e ∈ ls, isLoading e = true) (hsx : ∀ e ∈ ss, isStreaming e = true)
    (ht : isTerminal t = true) :
    ((ls ++ ss ++ [t]).countP isTerminal) = 1 := by
  rw [List.countP_append, List.countP_append]
  have h1 : ls.countP isTerminal = 0 := List.countP_eq_zero.mpr fun e he => by
    simp [isTerminal_eq_false_of_isLoading (hl e he)]
  have h2 : ss.countP isTerminal = 0 := List.countP_eq_zero.mpr fun e he => by
    simp [isTerminal_eq_false_of_isStreaming (hsx e he)]
  have h3 : ([t].countP isTerminal) = 1 := by simp [List.countP_cons, ht]
  omega

/-- C6: for every world and every input, the event sequence of one
invocation consists of zero or more `loading` events, then zero or more
`streaming` events, then exactly one terminal event (`done` or `error`),
which is the last event. -/
theorem event_stream_well_shaped (E : Encoder) (w : World) (query mode : String)
    (history : List Msg) :
    wellShaped (eventsOf (talk_to_robot_internal E w query mode history)) ∧
    (eventsOf (talk_to_robot_internal E w query mode history)).countP isTerminal = 1 := by
  suffices main : wellShaped (eventsOf (talk_to_robot_internal E w query mode history)) by
    obtain ⟨ls, ss, t, heq, hl, hs2, ht⟩ := main
    exact ⟨⟨ls, ss, t, heq, hl, hs2, ht⟩,
      by rw [heq]; exact countP_isTerminal_shape hl hs2 ht⟩
  cases hr : w.retrieval with
  | error e =>
    have hev : eventsOf (talk_to_robot_internal E w query mode history) =
        [.loading "semantic" none, .error e] := by
      simp [talk_to_robot_internal, hr, eventsOf]
    exact ⟨[.loading "semantic" none], [], .error e, by simpa using hev,
      by simp [isLoading], by simp, rfl⟩
  | ok blocks =>
    cases hcp : construct_prompt E query mode history blocks with
    | error e =>
      have hev : eventsOf (talk_to_robot_internal E w query mode history) =
          [.loading "semantic" none, .loading "semantic" (some (citationsOf blocks)),
           .loading "prompt" none, .error e] := by
        simp [talk_to_robot_internal, hr, hcp, eventsOf]
      exact ⟨[.loading "semantic" none, .loading "semantic" (some (citationsOf blocks)),
        .loading "prompt" none], [], .error e, by simpa using hev,
        by simp [isLoading], by simp, rfl⟩
    | ok p =>
      cases hm : w.moderation with
      | error e =>
        have hev : eventsOf (talk_to_robot_internal E w query mode history) =
            [.loading "semantic" none, .loading "semantic" (some (citationsOf blocks)),
             .loading "prompt" none, .error e] := by
          simp [talk_to_robot_internal, hr, hcp, hm, eventsOf]
        exact ⟨[.loading "semantic" none, .loading "semantic" (some (citationsOf blocks)),
          .loading "prompt" none], [], .error e, by simpa using hev,
          by simp [isLoading], by simp, rfl⟩
      | ok flags =>
        cases hfl : flags.any id with
        | true =>
          have hev : eventsOf (talk_to_robot_internal E w query mode history) =
              [.loading "semantic" none, .loading "semantic" (some (citationsOf blocks)),
               .loading "prompt" none, .error moderationMsg] := by
            simp [talk_to_robot_internal, hr, hcp, hm, hfl, eventsOf]
          exact ⟨[.loading "semantic" none, .loading "semantic" (some (citationsOf blocks)),
            .loading "prompt" none], [], .error moderationMsg, by simpa using hev,
            by simp [isLoading], by simp, rfl⟩
        | false =>
          by_cases hbb : w.currentCost ≤ w.totalBudget
          · have hev : eventsOf (talk_to_robot_internal E w query mode history) =
                [.loading "semantic" none, .loading "semantic" (some (citationsOf blocks)),
                 .loading "prompt" none, .loading "llm" none, .error budgetMsg] := by
              simp [talk_to_robot_internal, hr, hcp, hm, hfl, hbb, eventsOf]
            exact ⟨[.loading "semantic" none, .loading "semantic" (some (citationsOf blocks)),
              .loading "prompt" none, .loading "llm" none], [], .error budgetMsg,
              by simpa using hev, by simp [isLoading], by simp, rfl⟩
          · cases hst : w.streamTail with
            | some e =>
              have htr : talk_to_robot_internal E w query mode history =
                  ([.emit (.loading "semantic" none), .callRetrieval,
                    .emit (.loading "semantic" (some (citationsOf blocks))),
                    .emit (.loading "prompt" none), .callModeration,
                    .emit (.loading "llm" none), .callCompletion] : List Action) ++
                    ((streamEvents w.chunks).map Action.emit ++
                      [.emit (.error e)]) := by
                simp [talk_to_robot_internal, hr, hcp, hm, hfl, hbb, hst]
              have hev : eventsOf (talk_to_robot_internal E w query mode history) =
                  ([.loading "semantic" none, .loading "semantic" (some (citationsOf blocks)),
                    .loading "prompt" none, .loading "llm" none] : List Event) ++
                    streamEvents w.chunks ++ [.error e] := by
                rw [htr, eventsOf_append, eventsOf_append, eventsOf_map_emit]
                simp [eventsOf]
              exact ⟨[.loading "semantic" none, .loading "semantic" (some (citationsOf blocks)),
                .loading "prompt" none, .loading "llm" none], streamEvents w.chunks, .error e,
                hev, by simp [isLoading],
                fun e' he' => by obtain ⟨s, hs'⟩ := mem_streamEvents he'; rw [hs']; rfl, rfl⟩
            | none =>
              cases hfu : w.followups with
              | error e =>
                have htr : talk_to_robot_internal E w query mode history =
                    ([.emit (.loading "semantic" none), .callRetrieval,
                      .emit (.loading "semantic" (some (citationsOf blocks))),
                      .emit (.loading "prompt" none), .callModeration,
                      .emit (.loading "llm" none), .callCompletion] : List Action) ++
                      ((streamEvents w.chunks).map Action.emit ++
                        [.callFollowups, .emit (.error e)]) := by
                  simp [talk_to_robot_internal, hr, hcp, hm, hfl, hbb, hst, hfu]
                have hev : eventsOf (talk_to_robot_internal E w query mode history) =
                    ([.loading "semantic" none, .loading "semantic" (some (citationsOf blocks)),
                      .loading "prompt" none, .loading "llm" none] : List Event) ++
                      streamEvents w.chunks ++ [.error e] := by
                  rw [htr, eventsOf_append, eventsOf_append, eventsOf_map_emit]
                  simp [eventsOf]
                exact ⟨[.loading "semantic" none, .loading "semantic" (some (citationsOf blocks)),
                  .loading "prompt" none, .loading "llm" none], streamEvents w.chunks, .error e,
                  hev, by simp [isLoading],
                  fun e' he' => by obtain ⟨s, hs'⟩ := mem_streamEvents he'; rw [hs']; rfl, rfl⟩
              | ok fs =>
                have htr : talk_to_robot_internal E w query mode history =
                    ([.emit (.loading "semantic" none), .callRetrieval,
                      .emit (.loading "semantic" (some (citationsOf blocks))),
                      .emit (.loading "prompt" none), .callModeration,
                      .emit (.loading "llm" none), .callCompletion] : List Action) ++
                      ((streamEvents w.chunks).map Action.emit ++
                        [.callFollowups, .emit (.done fs)]) := by
                  simp [talk_to_robot_internal, hr, hcp, hm, hfl, hbb, hst, hfu]
                have hev : eventsOf (talk_to_robot_internal E w query mode history) =
                    ([.loading "semantic" none, .loading "semantic" (some (citationsOf blocks)),
                      .loading "prompt" none, .loading "llm" none] : List Event) ++
                      streamEvents w.chunks ++ [.done fs] := by
                  rw [htr, eventsOf_append, eventsOf_append, eventsOf_map_emit]
                  simp [eventsOf]
                exact ⟨[.loading "semantic" none, .loading "semantic" (some (citationsOf blocks)),
                  .loading "prompt" none, .loading "llm" none], streamEvents w.chunks, .done fs,
                  hev, by simp [isLoading],
                  fun e' he' => by obtain ⟨s, hs'⟩ := mem_streamEvents he'; rw [hs']; rfl, rfl⟩

/-! ## C5 -/

/-- Total measured token cost of a list of prompt messages (the running
counter of the history loop measures exactly the content of each appended
message). -/
def histCost (E : Encoder) : List Msg → Nat
  | [] => 0
  | m :: rest => tokenCount E m.content + histCost E rest

theorem histCost_append (E : Encoder) (a b : List Msg) :
    histCost E (a ++ b) = histCost E a + histCost E b := by
  induction a with
  | nil => simp [histCost]
  | cons x xs ih => simp [histCost, ih]; omega

theorem histCost_reverse (E : Encoder) (l : List Msg) :
    histCost E l.reverse = histCost E l := by
  induction l with
  | nil => rfl
  | cons x xs ih => simp [histCost, histCost_append, ih]; omega

set_option maxRecDepth 20000 in
/-- C5 counterexample: a single user history turn of 1021 characters is
appended to the prompt without any cap (only assistant turns are capped),
so the measured history cost is `3 + 1021 = 1024`, strictly above
`int(NUM_TOKENS * HISTORY_FRACTION) = 1023`. -/
theorem history_cost_can_exceed_fraction :
    histCost charEncoder (promptHistory charEncoder
        [⟨"user", String.mk (List.replicate 1021 'a')⟩]) = 1024 ∧
    histTokenLimit < 1024 := by
  refine ⟨?_, by decide⟩
  have hph : promptHistory charEncoder [⟨"user", String.mk (List.replicate 1021 'a')⟩] =
      [⟨"user", "Q: " ++ String.mk (List.replicate 1021 'a')⟩] := by
    decide
  rw [hph]
  simp only [histCost]
  rw [tokenCount_charEncoder, String.length_append]
  have h1 : ("Q: " : String).length = 3 := rfl
  have h2 : (String.mk (List.replicate 1021 'a')).length = 1021 := by
    show (List.replicate 1021 'a').length = 1021
    rw [List.length_replicate]
  omega

/-- The running counter stays within the limit up to (but excluding) the
last collected message: dropping the final element of the collected
(most-recent-first) list, its cost plus the incoming counter is bounded. -/
theorem history_trnc_cost_invariant (E : Encoder) (msgs : List Msg) :
    ∀ tc : Nat, tc ≤ histTokenLimit →
      tc + histCost E ((history_trnc E msgs tc).dropLast) ≤ histTokenLimit := by
  induction msgs with
  | nil =>
    intro tc h
    simpa [history_trnc, histCost] using h
  | cons m rest ih =>
    intro tc h
    have step : ∀ m' : Msg,
        tc + histCost E ((m' :: (if tc + tokenCount E m'.content > histTokenLimit then []
          else history_trnc E rest (tc + tokenCount E m'.content))).dropLast) ≤
          histTokenLimit := by
      intro m'
      by_cases hc : tc + tokenCount E m'.content > histTokenLimit
      · rw [if_pos hc]
        simpa [histCost] using h
      · rw [if_neg hc]
        cases hrec : history_trnc E rest (tc + tokenCount E m'.content) with
        | nil => simpa [histCost] using h
        | cons y ys =>
          have hih := ih (tc + tokenCount E m'.content) (Nat.le_of_not_lt hc)
          rw [hrec] at hih
          rw [List.dropLast_cons₂]
          simp only [histCost] at hih ⊢
          omega
    by_cases hrole : m.role = "user"
    · simpa only [history_trnc, hrole, if_pos] using
        step ⟨"user", "Q: " ++ m.content⟩
    · simpa only [history_trnc, hrole, if_neg, if_false] using
        step ⟨"assistant",
          scrubCitations (cap E m.content ((histTokenLimit : Int) - (tc : Int)))⟩

/-- C5 amended: the total measured token cost of the history messages in
the assembled prompt, excluding the chronologically first kept message
(the last one collected in the backward walk — the message allowed to
cross the threshold), is at most `int(NUM_TOKENS * HISTORY_FRACTION)`;
the crossing message itself is included by the loop, so the full total
may exceed that limit (first-crossing inclusion). -/
theorem history_cost_bounded_before_crossing (E : Encoder) (history : List Msg) :
    histCost E ((promptHistory E history).drop 1) ≤ histTokenLimit := by
  have hinv := history_trnc_cost_invariant E (history.reverse.take 9) 0 (Nat.zero_le _)
  unfold promptHistory
  rw [List.drop_one, List.tail_reverse_eq_reverse_dropLast, histCost_reverse]
  simpa using hinv

/-! ## C7 -/

/-- Concatenation of rendered reference blocks, in input order. -/
def joinBlocks : List (Nat × Block) → String
  | [] => ""
  | (i, b) :: rest => renderBlock i b ++ joinBlocks rest

/-- Accumulated token cost of rendered reference blocks, in input order. -/
def blocksCost (E : Encoder) : List (Nat × Block) → Nat
  | [] => 0
  | (i, b) :: rest => tokenCount E (renderBlock i b) + blocksCost E rest

/-- C7: the context loop appends whole rendered blocks in input order
while the running token count stays within
`int(NUM_TOKENS * CONTEXT_FRACTION)`; the first block whose whole
rendering would cross the limit is truncated by `cap` to the remaining
budget and the loop stops there, dropping all later blocks — nothing is
reordered or partially spliced.  Formally: there is a cut position `j`
such that every wholly included prefix keeps the accumulated cost within
the limit, and the output is the input text followed by the first `j`
renderings, plus — exactly when block `j` exists and would cross the
limit — the `cap` of that one block to the remaining budget. -/
theorem contextLoop_first_crossing (E : Encoder) (ebs : List (Nat × Block))
    (acc : String) (tc : Nat) :
    ∃ j, j ≤ ebs.length ∧
      (∀ k, k < j → tc + blocksCost E (ebs.take (k + 1)) ≤ ctxTokenLimit) ∧
      ((j = ebs.length ∧
          contextLoop E ebs acc tc = acc ++ joinBlocks (ebs.take j)) ∨
        (∃ h : j < ebs.length,
          tc + blocksCost E (ebs.take j) +
              tokenCount E (renderBlock (ebs.get ⟨j, h⟩).1 (ebs.get ⟨j, h⟩).2) >
            ctxTokenLimit ∧
          contextLoop E ebs acc tc =
            acc ++ joinBlocks (ebs.take j) ++
              cap E (renderBlock (ebs.get ⟨j, h⟩).1 (ebs.get ⟨j, h⟩).2)
                ((ctxTokenLimit : Int) -
                  ((tc + blocksCost E (ebs.take j) : Nat) : Int)))) := by
  induction ebs generalizing acc tc with
  | nil =>
    refine ⟨0, le_rfl, fun k hk => absurd hk (Nat.not_lt_zero k), Or.inl ⟨rfl, ?_⟩⟩
    simp [contextLoop, joinBlocks, String.append_empty]
  | cons hd rest ih =>
    obtain ⟨i, b⟩ := hd
    by_cases hc : tc + tokenCount E (renderBlock i b) > ctxTokenLimit
    · refine ⟨0, Nat.zero_le _, fun k hk => absurd hk (Nat.not_lt_zero k),
        Or.inr ⟨Nat.succ_pos _, ?_, ?_⟩⟩
      · simpa [blocksCost] using hc
      · show contextLoop E ((i, b) :: rest) acc tc = _
        simp only [contextLoop]
        rw [if_pos hc]
        have h0 : (((i, b) :: rest).get ⟨0, Nat.succ_pos _⟩) = (i, b) := rfl
        simp [h0, joinBlocks, blocksCost, String.append_empty]
    · obtain ⟨j, hj, hpre, hout⟩ :=
        ih (acc ++ renderBlock i b) (tc + tokenCount E (renderBlock i b))
      have hnc : tc + tokenCount E (renderBlock i b) ≤ ctxTokenLimit := Nat.le_of_not_lt hc
      refine ⟨j + 1, by simp only [List.length_cons]; omega, ?_, ?_⟩
      · intro k hk
        cases k with
        | zero =>
          simpa [List.take_succ_cons, blocksCost] using hnc
        | succ k3 =>
          have h3 := hpre k3 (Nat.lt_of_succ_lt_succ hk)
          simp only [List.take_succ_cons, blocksCost] at h3 ⊢
          omega
      · have hstep : contextLoop E ((i, b) :: rest) acc tc =
            contextLoop E rest (acc ++ renderBlock i b)
              (tc + tokenCount E (renderBlock i b)) := by
          simp only [contextLoop]
          rw [if_neg hc]
        rcases hout with ⟨hjlen, heq⟩ | ⟨hlt, hcross, heq⟩
        · left
          refine ⟨by simp only [List.length_cons]; omega, ?_⟩
          rw [hstep, heq, List.take_succ_cons]
          have hjoin : joinBlocks ((i, b) :: rest.take j) =
              renderBlock i b ++ joinBlocks (rest.take j) := rfl
          rw [hjoin, ← String.append_assoc]
        · right
          have hget : (((i, b) :: rest).get ⟨j + 1, Nat.succ_lt_succ hlt⟩) =
              rest.get ⟨j, hlt⟩ := rfl
          have hbc : blocksCost E (((i, b) :: rest).take (j + 1)) =
              tokenCount E (renderBlock i b) + blocksCost E (rest.take j) := by
            simp [List.take_succ_cons, blocksCost]
          refine ⟨Nat.succ_lt_succ hlt, ?_, ?_⟩
          · rw [hget, hbc]
            omega
          · rw [hstep, heq, hget, List.take_succ_cons]
            have hjoin : joinBlocks ((i, b) :: rest.take j) =
                renderBlock i b ++ joinBlocks (rest.take j) := rfl
            rw [hjoin, ← String.append_assoc]
            have harg : ((ctxTokenLimit : Int) -
                ((tc + tokenCount E (renderBlock i b) + blocksCost E (rest.take j) : Nat) : Int)) =
                ((ctxTokenLimit : Int) -
                  ((tc + blocksCost E (((i, b) :: rest).take (j + 1)) : Nat) : Int)) := by
              rw [hbc]
              push_cast
              ring
            rw [harg, List.take_succ_cons]

/-! ## C9 -/

/-- One kept prompt-history message derives from one original history
entry: a user turn keeps its content behind `"Q: "`; any other turn
becomes an assistant message whose content is the citation-scrubbed `cap`
of the original content at some remaining budget. -/
def derivedFrom (E : Encoder) (h m : Msg) : Prop :=
  (h.role = "user" ∧ m = ⟨"user", "Q: " ++ h.content⟩) ∨
  (h.role ≠ "user" ∧
    ∃ budget : Int, m = ⟨"assistant", scrubCitations (cap E h.content budget)⟩)

/-- The collected (most-recent-first) messages correspond one-to-one, in
order, to a prefix of the walked slice. -/
theorem history_trnc_forall₂ (E : Encoder) (xs : List Msg) :
    ∀ tc, ∃ j, j ≤ xs.length ∧
      List.Forall₂ (derivedFrom E) (xs.take j) (history_trnc E xs tc) := by
  induction xs with
  | nil =>
    intro tc
    exact ⟨0, le_rfl, by simp [history_trnc]⟩
  | cons m rest ih =>
    intro tc
    have step : ∀ m' : Msg, derivedFrom E m m' → ∀ tc' : Nat,
        ∃ j, j ≤ (m :: rest).length ∧
          List.Forall₂ (derivedFrom E) ((m :: rest).take j)
            (m' :: (if tc' > histTokenLimit then [] else history_trnc E rest tc')) := by
      intro m' hd tc'
      by_cases hcut : tc' > histTokenLimit
      · rw [if_pos hcut]
        exact ⟨1, by simp, by
          simpa [List.take_succ_cons] using
            List.Forall₂.cons hd List.Forall₂.nil⟩
      · rw [if_neg hcut]
        obtain ⟨j, hj, hf⟩ := ih tc'
        refine ⟨j + 1, by simp only [List.length_cons]; omega, ?_⟩
        rw [List.take_succ_cons]
        exact List.Forall₂.cons hd hf
    by_cases hrole : m.role = "user"
    · simpa only [history_trnc, hrole, if_pos] using
        step ⟨"user", "Q: " ++ m.content⟩ (Or.inl ⟨hrole, rfl⟩)
          (tc + tokenCount E ("Q: " ++ m.content))
    · simpa only [history_trnc, hrole, if_neg, if_false] using
        step ⟨"assistant",
            scrubCitations (cap E m.content ((histTokenLimit : Int) - (tc : Int)))⟩
          (Or.inr ⟨hrole, ⟨(histTokenLimit : Int) - (tc : Int), rfl⟩⟩)
          (tc + tokenCount E
            (scrubCitations (cap E m.content ((histTokenLimit : Int) - (tc : Int)))))

/-- C9: the history messages folded into the assembled prompt are drawn
only from the last 10 entries of the history (at most 10 are kept; the
slice `history[:-10:-1]` in fact yields at most the last nine), selected
most recent first and re-reversed: the kept list corresponds, entry by
entry and in chronological order, to a contiguous suffix of the history,
and it sits between the system message and the final user message of the
assembled prompt. -/
theorem prompt_history_from_recent_suffix (E : Encoder) (history : List Msg) :
    (promptHistory E history).length ≤ 10 ∧
    (∃ j, j ≤ 10 ∧
      List.Forall₂ (derivedFrom E) (history.drop (history.length - j))
        (promptHistory E history)) ∧
    (∀ (query : String) (context : List Block), ∃ s u,
      construct_prompt E query "default" history context =
        .ok (⟨"system", s⟩ :: (promptHistory E history ++ [⟨"user", u⟩]))) := by
  obtain ⟨j, hj, hf⟩ := history_trnc_forall₂ E (history.reverse.take 9) 0
  have hxlen : (history.reverse.take 9).length ≤ 9 :=
    List.length_take_le 9 history.reverse
  have hj9 : j ≤ 9 := le_trans hj hxlen
  have htake : (history.reverse.take 9).take j = history.reverse.take j := by
    rw [List.take_take, min_eq_left hj9]
  rw [htake] at hf
  have hrev := List.rel_reverse hf
  have hsuffix : (history.reverse.take j).reverse = history.drop (history.length - j) := by
    rw [← List.rtake_eq_reverse_take_reverse]
    rfl
  rw [hsuffix] at hrev
  refine ⟨?_, ⟨j, le_trans hj9 (by omega), hrev⟩, ?_⟩
  · have hlen := List.Forall₂.length_eq hrev
    have hdlen : (history.drop (history.length - j)).length ≤ j := by
      simp only [List.length_drop]
      omega
    unfold promptHistory
    omega
  · intro query context
    exact ⟨_, _, rfl⟩

end StampyChat
